import Mathlib

/-!
Shallow embedding of the compositing / paint engine of the MyGimp repository
(`src/Gimp/src/canvas.rs` and `src/Gimp/src/history.rs`) and proofs about it.

Modelling conventions:
* `u8` byte values are `Nat`s (the code only ever stores values `0..=255` and
  never relies on wrap-around in the fragments embedded here);
* `Vec<u8>` buffers are `List Nat`; reads are `List.getD` with default `0` and
  writes are `List.set` / slice splicing, all of which the source guards with
  explicit length checks that are reproduced verbatim;
* the field `zoom_scale : f32` is only ever used through the expression
  `((v as f32) / self.zoom_scale) as i32`; the canvas model therefore stores
  that induced map `zmap : Nat → Int` directly, abstracting the floating-point
  division.  Every theorem quantifying over canvases quantifies over all such
  maps, hence covers every concrete `f32` behaviour;
* `wgpu::COPY_BYTES_PER_ROW_ALIGNMENT` is the constant 256.
-/

/-- `wgpu::COPY_BYTES_PER_ROW_ALIGNMENT`. -/
def COPY_BYTES_PER_ROW_ALIGNMENT : Nat := 256

/-- `aligned_stride` from `canvas.rs`: round `width*4` up to the alignment. -/
def aligned_stride (width : Nat) : Nat :=
  let row := width * 4
  let align := COPY_BYTES_PER_ROW_ALIGNMENT
  (row + align - 1) / align * align

/-- The `Canvas` struct from `canvas.rs`.  `zmap` models the f32 field
`zoom_scale` through its only use pattern `(v as f32 / zoom_scale) as i32`
(see the header comment). -/
structure Canvas where
  width : Nat
  height : Nat
  stride : Nat
  pixels : List Nat
  dirty : Bool
  loadedImageSize : Option (Nat × Nat)
  loadedImageData : Option (List Nat)
  zmap : Nat → Int
  drawingLayer : List Nat
  panOffset : Int × Int

/-- `Canvas::new`.  At the default `zoom_scale = 1.0` the division/cast is the
identity on every representable coordinate, so `zmap` is the identity. -/
def Canvas.new (width height : Nat) : Canvas :=
  let stride := aligned_stride width
  { width := width
    height := height
    stride := stride
    pixels := List.replicate (stride * height) 255
    dirty := false
    loadedImageSize := none
    loadedImageData := none
    zmap := fun v => (v : Int)
    drawingLayer := []
    panOffset := (0, 0) }

/-! ## History (`history.rs`) -/

/-- `MAX_HISTORY` from `history.rs`. -/
def MAX_HISTORY : Nat := 50

/-- The `HistoryState` snapshot struct from `history.rs`. -/
structure HistoryState where
  pixels : List Nat
  drawingLayer : List Nat
  stride : Nat
  width : Nat
  height : Nat
deriving DecidableEq

/-- The `History` struct from `history.rs`. -/
structure History where
  states : List HistoryState
  current : Nat
deriving DecidableEq

/-- `History::new`. -/
def History.new : History := { states := [], current := 0 }

/-- The snapshot `push` takes of a canvas (the struct literal inside
`History::push`). -/
def Canvas.snapshot (c : Canvas) : HistoryState :=
  { pixels := c.pixels
    drawingLayer := c.drawingLayer
    stride := c.stride
    width := c.width
    height := c.height }

/-- `History::push`: truncate after `current`, then either evict the oldest
state (at capacity) or advance `current`, then append the new snapshot. -/
def History.push (h : History) (canvas : Canvas) : History :=
  let states := h.states.take (h.current + 1)
  if MAX_HISTORY ≤ states.length then
    { states := states.drop 1 ++ [canvas.snapshot], current := h.current }
  else
    { states := states ++ [canvas.snapshot], current := h.current + 1 }

/-- Restore a snapshot into the canvas (the shared body of `undo`/`redo`). -/
def Canvas.restoreFrom (c : Canvas) (s : HistoryState) : Canvas :=
  { c with pixels := s.pixels, drawingLayer := s.drawingLayer, dirty := true }

/-- Default snapshot used to express Rust's (always in-bounds, see
`c9_history_indices_in_bounds`) indexing `states[current]` via `getD`. -/
def emptyState : HistoryState :=
  { pixels := [], drawingLayer := [], stride := 0, width := 0, height := 0 }

/-- `History::undo`: returns the new history, the new canvas and the reported
`bool`. -/
def History.undo (h : History) (c : Canvas) : History × Canvas × Bool :=
  if 0 < h.current then
    let cur := h.current - 1
    let state := h.states.getD cur emptyState
    ({ h with current := cur }, c.restoreFrom state, true)
  else
    (h, c, false)

/-- `History::redo`. -/
def History.redo (h : History) (c : Canvas) : History × Canvas × Bool :=
  if h.current + 1 < h.states.length then
    let cur := h.current + 1
    let state := h.states.getD cur emptyState
    ({ h with current := cur }, c.restoreFrom state, true)
  else
    (h, c, false)

/-- `History::can_undo`. -/
def History.canUndo (h : History) : Bool :=
  decide (0 < h.current)

/-- `History::can_redo`. -/
def History.canRedo (h : History) : Bool :=
  decide (h.current + 1 < h.states.length)

/-- Histories reachable from `History::new()` by any sequence of
push/undo/redo. -/
inductive ReachableHistory : History → Prop
  | new : ReachableHistory History.new
  | push (h : History) (c : Canvas) :
      ReachableHistory h → ReachableHistory (h.push c)
  | undo (h : History) (c : Canvas) :
      ReachableHistory h → ReachableHistory (h.undo c).1
  | redo (h : History) (c : Canvas) :
      ReachableHistory h → ReachableHistory (h.redo c).1

/-- Core history invariant: `current ≤ states.length ≤ MAX_HISTORY`. -/
theorem reachable_history_inv (h : History) (hr : ReachableHistory h) :
    h.current ≤ h.states.length ∧ h.states.length ≤ MAX_HISTORY := by
  induction hr with
  | new => simp [History.new]
  | push h c _ ih =>
      obtain ⟨h1, h2⟩ := ih
      simp only [MAX_HISTORY] at h2 ⊢
      simp only [History.push, MAX_HISTORY]
      split
      next hcap =>
        simp only [List.length_take] at hcap
        simp only [List.length_append, List.length_drop, List.length_take,
          List.length_cons, List.length_nil]
        omega
      next hcap =>
        simp only [List.length_take] at hcap
        simp only [List.length_append, List.length_take, List.length_cons,
          List.length_nil]
        omega
  | undo h c _ ih =>
      obtain ⟨h1, h2⟩ := ih
      unfold History.undo
      by_cases hc : 0 < h.current
      · simp only [hc, if_true]
        exact ⟨by omega, h2⟩
      · simp only [hc, if_false]
        exact ⟨h1, h2⟩
  | redo h c _ ih =>
      obtain ⟨h1, h2⟩ := ih
      unfold History.redo
      by_cases hc : h.current + 1 < h.states.length
      · simp only [hc, if_true]
        exact ⟨by omega, h2⟩
      · simp only [hc, if_false]
        exact ⟨h1, h2⟩

/-- After any push, `can_redo` is false: the redo branch has been discarded.
(Holds for every history and canvas, reachable or not.) -/
theorem push_canRedo_false (h : History) (c : Canvas) :
    (h.push c).canRedo = false := by
  simp only [History.push, History.canRedo]
  split
  next hcap =>
    simp only [List.length_append, List.length_drop, List.length_take,
      List.length_cons, List.length_nil, decide_eq_false_iff_not, not_lt]
    have := List.length_take_le (h.current + 1) h.states
    omega
  next hcap =>
    simp only [List.length_append, List.length_take, List.length_cons,
      List.length_nil, decide_eq_false_iff_not, not_lt]
    have := List.length_take_le (h.current + 1) h.states
    omega

/-- C9: every reachable `History` satisfies `current ≤ states.length`; hence
the index `states` is read at inside `undo` (`current` after the decrement,
guarded by `can_undo`) and inside `redo` (`current` after the increment,
guarded by `can_redo`) is strictly below `states.length`, so those reads are
in bounds. -/
theorem c9_history_indices_in_bounds (h : History) (hr : ReachableHistory h) :
    h.current ≤ h.states.length ∧
      (h.canUndo = true → h.current - 1 < h.states.length) ∧
      (h.canRedo = true → h.current + 1 < h.states.length) := by
  obtain ⟨h1, _⟩ := reachable_history_inv h hr
  refine ⟨h1, ?_, ?_⟩ <;>
    simp only [History.canUndo, History.canRedo, decide_eq_true_eq] <;>
    omega

/-- Witness for `c9_history_indices_in_bounds` at the concrete reachable
history `new.push c₀`. -/
theorem c9_history_indices_in_bounds_witness :
    (History.new.push (Canvas.new 0 0)).current
        ≤ (History.new.push (Canvas.new 0 0)).states.length ∧
      ((History.new.push (Canvas.new 0 0)).canUndo = true →
        (History.new.push (Canvas.new 0 0)).current - 1
          < (History.new.push (Canvas.new 0 0)).states.length) ∧
      ((History.new.push (Canvas.new 0 0)).canRedo = true →
        (History.new.push (Canvas.new 0 0)).current + 1
          < (History.new.push (Canvas.new 0 0)).states.length) :=
  c9_history_indices_in_bounds (History.new.push (Canvas.new 0 0))
    (ReachableHistory.push History.new (Canvas.new 0 0) ReachableHistory.new)

/-- C1 fails on the very first push: starting from `History::new()`, after one
`push` the field `current` is `1` while `states.len() - 1 = 0`, so `current`
does not index the most recently pushed state. -/
theorem c1_counterexample :
    ¬ ((History.new.push (Canvas.new 0 0)).current
        = (History.new.push (Canvas.new 0 0)).states.length - 1) := by
  decide

/-- C1 amended: after a push on a reachable history, `current` indexes the
most recently pushed state (`current = states.len() - 1`) exactly when
`current < states.len()` held before the push; when `current = states.len()`
held before (as in `History::new()` and after every undo-free prefix, in
particular on the very first push), `current` instead ends one past the last
index: `current = states.len()`. -/
theorem c1_push_current_position (h : History) (c : Canvas)
    (hr : ReachableHistory h) :
    (h.current = h.states.length →
      (h.push c).current = (h.push c).states.length) ∧
    (h.current < h.states.length →
      (h.push c).current = (h.push c).states.length - 1) := by
  obtain ⟨h1, h2⟩ := reachable_history_inv h hr
  simp only [MAX_HISTORY] at h2
  simp only [History.push, MAX_HISTORY]
  constructor <;> intro hcur <;> split <;>
    simp only [List.length_append, List.length_drop, List.length_take,
      List.length_cons, List.length_nil] <;>
    simp_all only [List.length_take] <;> omega

/-- Witness for `c1_push_current_position`: the very first push lands in the
`current = states.len()` regime. -/
theorem c1_push_current_position_witness :
    History.new.current = History.new.states.length ∧
      (History.new.push (Canvas.new 0 0)).current
        = (History.new.push (Canvas.new 0 0)).states.length :=
  ⟨rfl,
    (c1_push_current_position History.new (Canvas.new 0 0)
      ReachableHistory.new).1 rfl⟩

/-- Iterated `undo`, threading the canvas and and-ing the reported results
(used to settle C2 concretely). -/
def undoRun : Nat → History → Canvas → History × Canvas × Bool
  | 0, h, c => (h, c, true)
  | n + 1, h, c =>
      let r := h.undo c
      let r' := undoRun n r.1 r.2.1
      (r'.1, r'.2.1, r.2.2 && r'.2.2)

/-- The canvas used for the concrete history experiments. -/
def c2Canvas : Canvas := Canvas.new 0 0

/-- The history obtained by `MAX_HISTORY + 5 = 55` pushes from
`History::new()`. -/
def c2History : History :=
  (fun h => h.push c2Canvas)^[55] History.new

set_option maxRecDepth 4000 in
/-- C2 fails as stated: after 55 pushes exactly 50 states are retained, but
`current = 50 = states.len()`, which is not the index of the last pushed
state (`49`); moreover `undo` then succeeds a 50th time right after 49
successes (the spec claims the boundary is reached after `MAX_HISTORY - 1`
repetitions). -/
theorem c2_counterexample :
    ¬ (c2History.current = c2History.states.length - 1 ∧
        (undoRun (MAX_HISTORY - 1) c2History c2Canvas).1.canUndo = false) := by
  decide

set_option maxRecDepth 4000 in
/-- C2 amended: 55 pushes from `History::new()` retain exactly
`MAX_HISTORY = 50` states, with `current = 50 = states.len()`, one past the
index of the last pushed state; `undo` then succeeds `MAX_HISTORY = 50` times
(not 49 — after 49 successes `can_undo()` is still true), and after the 50th
success `can_undo()` is false. -/
theorem c2_amended :
    c2History.states.length = MAX_HISTORY ∧
      c2History.current = MAX_HISTORY ∧
      (undoRun (MAX_HISTORY - 1) c2History c2Canvas).2.2 = true ∧
      (undoRun (MAX_HISTORY - 1) c2History c2Canvas).1.canUndo = true ∧
      (undoRun MAX_HISTORY c2History c2Canvas).2.2 = true ∧
      (undoRun MAX_HISTORY c2History c2Canvas).1.canUndo = false := by
  decide

/-- C7: on any history on which `undo()` has just succeeded, a subsequent
`push` discards the redo branch: `can_redo()` is false immediately after the
push. -/
theorem c7_push_truncates_redo (h : History) (c c' : Canvas)
    (_hr : ReachableHistory h) (_hok : (h.undo c).2.2 = true) :
    ((h.undo c).1.push c').canRedo = false :=
  push_canRedo_false (h.undo c).1 c'

/-- Witness for `c7_push_truncates_redo`: one push from new, then a
successful undo, then a push. -/
theorem c7_push_truncates_redo_witness :
    ((History.new.push c2Canvas).undo c2Canvas).2.2 = true ∧
      (((History.new.push c2Canvas).undo c2Canvas).1.push c2Canvas).canRedo
        = false :=
  ⟨by decide,
    c7_push_truncates_redo (History.new.push c2Canvas) c2Canvas c2Canvas
      (ReachableHistory.push History.new c2Canvas ReachableHistory.new)
      (by decide)⟩

/-- C8: at the boundary, `undo` (with `current = 0`) and `redo` (with
`current + 1 ≥ states.len()`) return `false` and leave both the history and
the canvas completely unchanged; both are total functions, so neither
boundary case can panic. -/
theorem c8_boundary_noop (h : History) (c : Canvas) :
    (h.current = 0 → h.undo c = (h, c, false)) ∧
    (h.states.length ≤ h.current + 1 → h.redo c = (h, c, false)) := by
  constructor
  · intro h0
    simp [History.undo, h0]
  · intro hlen
    have : ¬ (h.current + 1 < h.states.length) := by omega
    simp [History.redo, this]

/-- Witness for `c8_boundary_noop` at `History::new()`. -/
theorem c8_boundary_noop_witness :
    History.new.undo c2Canvas = (History.new, c2Canvas, false) ∧
      History.new.redo c2Canvas = (History.new, c2Canvas, false) :=
  ⟨(c8_boundary_noop History.new c2Canvas).1 rfl,
    (c8_boundary_noop History.new c2Canvas).2 (by decide)⟩

/-! ## Tight-packed pixel interchange (`canvas.rs`: `load_pixels`,
`extract_tight_pixels`) -/

/-- Rust `dst[i..i+seg.len()].copy_from_slice(&seg)` on a `Vec<u8>`: splice
`seg` into `l` at offset `i` (the source only invokes this under the bounds
check `i + seg.len() <= l.len()`). -/
def writeSlice (l : List Nat) (i : Nat) (seg : List Nat) : List Nat :=
  l.take i ++ seg ++ l.drop (i + seg.length)

/-- `Canvas::load_pixels`: copy a tight-packed RGBA buffer row by row into
the stride-padded composite buffer; early-return on dimension mismatch. -/
def Canvas.load_pixels (c : Canvas) (width height : Nat)
    (tight_pixels : List Nat) : Canvas :=
  if width ≠ c.width ∨ height ≠ c.height then c
  else
    let tight_stride := width * 4
    let px := (List.range height).foldl
      (fun px y =>
        let tight_offset := y * tight_stride
        let canvas_offset := y * c.stride
        if tight_offset + tight_stride ≤ tight_pixels.length ∧
            canvas_offset + tight_stride ≤ px.length then
          writeSlice px canvas_offset
            ((tight_pixels.drop tight_offset).take tight_stride)
        else px)
      c.pixels
    { c with pixels := px, dirty := true }

/-- `Canvas::extract_tight_pixels`: concatenate the first `width*4` bytes of
each stride-padded row. -/
def Canvas.extract_tight_pixels (c : Canvas) : List Nat :=
  let row_bytes := c.width * 4
  (List.range c.height).foldl
    (fun tight y =>
      let row_offset := y * c.stride
      if row_offset + row_bytes ≤ c.pixels.length then
        tight ++ (c.pixels.drop row_offset).take row_bytes
      else tight)
    []

/-- Buffer well-formedness as established by `Canvas::new` and maintained by
every operation: a stride holds at least one tight row, and the composite
buffer holds `stride * height` bytes. -/
def Canvas.WF (c : Canvas) : Prop :=
  c.width * 4 ≤ c.stride ∧ c.pixels.length = c.stride * c.height

/-- A row segment of a stride-padded buffer stays inside the buffer. -/
theorem row_bound {stride rb y h : Nat} (hrb : rb ≤ stride) (hy : y < h) :
    y * stride + rb ≤ stride * h := by
  have h1 : (y + 1) * stride ≤ h * stride := Nat.mul_le_mul_right _ hy
  calc y * stride + rb ≤ y * stride + stride := by omega
    _ = (y + 1) * stride := by ring
    _ ≤ h * stride := h1
    _ = stride * h := Nat.mul_comm _ _

/-- Splicing a segment of a list back into its own place is the identity. -/
theorem writeSlice_self (l : List Nat) (i n : Nat) :
    writeSlice l i ((l.drop i).take n) = l := by
  unfold writeSlice
  have hd : l.drop (i + ((l.drop i).take n).length) = l.drop (i + n) := by
    rcases le_total n (l.length - i) with h | h
    · rw [List.length_take, List.length_drop, Nat.min_eq_left h]
    · rw [List.length_take, List.length_drop, Nat.min_eq_right h,
        List.drop_eq_nil_of_le (by omega), List.drop_eq_nil_of_le (by omega)]
  rw [hd, List.append_assoc, List.drop_take_append_drop,
    List.take_append_drop]

/-- The first `k` rows accumulated by `extract_tight_pixels` (its `foldl`
restricted to `range k`). -/
def extractRows (c : Canvas) (k : Nat) : List Nat :=
  (List.range k).foldl
    (fun tight y =>
      let row_offset := y * c.stride
      if row_offset + c.width * 4 ≤ c.pixels.length then
        tight ++ (c.pixels.drop row_offset).take (c.width * 4)
      else tight)
    []

theorem extract_eq_extractRows (c : Canvas) :
    c.extract_tight_pixels = extractRows c c.height := rfl

theorem extractRows_succ (c : Canvas) (hwf : c.WF) (k : Nat)
    (hk : k < c.height) :
    extractRows c (k + 1)
      = extractRows c k ++ (c.pixels.drop (k * c.stride)).take (c.width * 4) := by
  obtain ⟨h1, h2⟩ := hwf
  unfold extractRows
  rw [List.range_succ, List.foldl_append]
  simp only [List.foldl_cons, List.foldl_nil]
  rw [if_pos]
  rw [h2]
  exact row_bound h1 hk

theorem extractRows_length (c : Canvas) (hwf : c.WF) (k : Nat)
    (hk : k ≤ c.height) :
    (extractRows c k).length = k * (c.width * 4) := by
  induction k with
  | zero => simp [extractRows]
  | succ n ih =>
      have hn : n < c.height := by omega
      rw [extractRows_succ c hwf n hn, List.length_append,
        ih (by omega), List.length_take, List.length_drop, hwf.2]
      have hb : n * c.stride + c.width * 4 ≤ c.stride * c.height :=
        row_bound hwf.1 hn
      have : min (c.width * 4) (c.stride * c.height - n * c.stride)
          = c.width * 4 := Nat.min_eq_left (by omega)
      rw [this]
      ring

theorem extractRows_row (c : Canvas) (hwf : c.WF) (k y : Nat)
    (hy : y < k) (hk : k ≤ c.height) :
    ((extractRows c k).drop (y * (c.width * 4))).take (c.width * 4)
      = (c.pixels.drop (y * c.stride)).take (c.width * 4) := by
  induction k with
  | zero => omega
  | succ n ih =>
      have hn : n < c.height := by omega
      rw [extractRows_succ c hwf n hn]
      set rb := c.width * 4 with hrb
      have hlen : (extractRows c n).length = n * rb :=
        extractRows_length c hwf n (by omega)
      have hrow : ((c.pixels.drop (n * c.stride)).take rb).length = rb := by
        rw [List.length_take, List.length_drop, hwf.2]
        have hb : n * c.stride + rb ≤ c.stride * c.height :=
          row_bound hwf.1 hn
        omega
      rcases Nat.lt_or_ge y n with hyn | hyn
      · -- the row lies inside the first `n` rows
        have hyb : y * rb + rb ≤ n * rb := by
          have : (y + 1) * rb ≤ n * rb := Nat.mul_le_mul_right _ hyn
          calc y * rb + rb = (y + 1) * rb := by ring
            _ ≤ n * rb := this
        rw [List.drop_append_eq_append_drop, List.take_append_eq_append_take]
        have hz1 : y * rb - (extractRows c n).length = 0 := by omega
        have hdlen : ((extractRows c n).drop (y * rb)).length
            = n * rb - y * rb := by
          rw [List.length_drop, hlen]
        have hz2 : rb - ((extractRows c n).drop (y * rb)).length = 0 := by
          rw [hdlen]; omega
        rw [hz1, hz2]
        simp only [List.drop_zero, List.take_zero, List.append_nil]
        exact ih hyn (by omega)
      · -- y = n: the row just appended
        have hyn' : y = n := by omega
        subst hyn'
        rw [List.drop_append_eq_append_drop, ← hlen, List.drop_length,
          Nat.sub_self]
        simp only [List.drop_zero, List.nil_append]
        exact List.take_of_length_le (le_of_eq hrow)

/-- C4: `extract_tight_pixels` returns exactly `width*height*4` bytes, and
loading that buffer back into the unchanged canvas and re-extracting
reproduces the identical tight buffer.  (In fact the load writes every
composite byte back to its old value.) -/
theorem c4_tight_roundtrip (c : Canvas) (hwf : c.WF) :
    (c.extract_tight_pixels).length = c.width * c.height * 4 ∧
      (c.load_pixels c.width c.height
          c.extract_tight_pixels).extract_tight_pixels
        = c.extract_tight_pixels := by
  obtain ⟨h1, h2⟩ := hwf
  have hlen : (c.extract_tight_pixels).length
      = c.height * (c.width * 4) := by
    rw [extract_eq_extractRows]
    exact extractRows_length c ⟨h1, h2⟩ c.height le_rfl
  constructor
  · rw [hlen]; ring
  · -- the inner foldl of `load_pixels` leaves the buffer untouched
    have key : ∀ k, k ≤ c.height →
        (List.range k).foldl
          (fun px y =>
            let tight_offset := y * (c.width * 4)
            let canvas_offset := y * c.stride
            if tight_offset + c.width * 4
                  ≤ (c.extract_tight_pixels).length ∧
                canvas_offset + c.width * 4 ≤ px.length then
              writeSlice px canvas_offset
                ((c.extract_tight_pixels.drop tight_offset).take
                  (c.width * 4))
            else px)
          c.pixels = c.pixels := by
      intro k hk
      induction k with
      | zero => simp
      | succ n ih =>
          rw [List.range_succ, List.foldl_append, ih (by omega)]
          simp only [List.foldl_cons, List.foldl_nil]
          rw [if_pos, extract_eq_extractRows,
            extractRows_row c ⟨h1, h2⟩ c.height n hk le_rfl,
            writeSlice_self]
          constructor
          · rw [hlen]
            have : (n + 1) * (c.width * 4) ≤ c.height * (c.width * 4) :=
              Nat.mul_le_mul_right _ hk
            calc n * (c.width * 4) + c.width * 4
                = (n + 1) * (c.width * 4) := by ring
              _ ≤ c.height * (c.width * 4) := this
          · rw [h2]
            exact row_bound h1 hk
    have hnoop : (c.load_pixels c.width c.height c.extract_tight_pixels)
        = { c with dirty := true } := by
      unfold Canvas.load_pixels
      rw [if_neg (by simp)]
      simp only
      rw [key c.height le_rfl]
    rw [hnoop]
    rfl

/-- Witness canvas for the tight-pixel claims: 1×2, stride 4. -/
def c4Canvas : Canvas :=
  { width := 1, height := 2, stride := 4,
    pixels := [1, 2, 3, 4, 5, 6, 7, 8],
    dirty := false, loadedImageSize := none, loadedImageData := none,
    zmap := fun v => (v : Int), drawingLayer := [], panOffset := (0, 0) }

/-- Witness for `c4_tight_roundtrip` on the concrete canvas `c4Canvas`. -/
theorem c4_tight_roundtrip_witness :
    c4Canvas.WF ∧
      ((c4Canvas.extract_tight_pixels).length
          = c4Canvas.width * c4Canvas.height * 4 ∧
        (c4Canvas.load_pixels c4Canvas.width c4Canvas.height
            c4Canvas.extract_tight_pixels).extract_tight_pixels
          = c4Canvas.extract_tight_pixels) :=
  ⟨⟨by decide, by decide⟩, c4_tight_roundtrip c4Canvas ⟨by decide, by decide⟩⟩

/-- C10: `load_pixels` with mismatched dimensions is a complete no-op — the
early return leaves every canvas field, including `dirty`, unchanged. -/
theorem c10_load_mismatch_noop (c : Canvas) (w h : Nat) (data : List Nat)
    (hne : w ≠ c.width ∨ h ≠ c.height) :
    c.load_pixels w h data = c := by
  unfold Canvas.load_pixels
  rw [if_pos hne]

/-- Witness for `c10_load_mismatch_noop`: wrong width on `c4Canvas`. -/
theorem c10_load_mismatch_noop_witness :
    (2 ≠ c4Canvas.width ∨ 2 ≠ c4Canvas.height) ∧
      c4Canvas.load_pixels 2 2 [9, 9, 9, 9] = c4Canvas :=
  ⟨Or.inl (by decide),
    c10_load_mismatch_noop c4Canvas 2 2 [9, 9, 9, 9] (Or.inl (by decide))⟩

/-! ## Filters (`canvas.rs`): drawing-layer effect

Each `Canvas::filter_*` method runs only when `loaded_image_size` is
`Some((img_w, img_h))`; it mutates `drawing_layer` as modelled below and then
re-renders the composite buffer through `paste_image_with_offset`, which —
called with the unchanged image size — never reallocates or writes
`drawing_layer` (its `is_new_image` test is false), so the functions below
are the exact drawing-layer effect of the four filters.  `filter_grayscale`
and `filter_brightness_contrast` compute replacement channel values in `f32`;
those per-pixel numeric maps are abstracted as the function parameters
`gray` / `adjust`, so theorems quantifying over them cover every possible
behaviour of the floating-point arithmetic.  `filter_invert` and
`filter_blur` use exact integer arithmetic and are embedded verbatim. -/

/-- `Canvas::filter_invert` on the drawing layer. -/
def filter_invert (img_w img_h : Nat) (layer0 : List Nat) : List Nat :=
  (List.range img_h).foldl
    (fun layer y =>
      (List.range img_w).foldl
        (fun layer x =>
          let idx := y * (img_w * 4) + x * 4
          if idx + 3 < layer.length then
            if 0 < layer.getD (idx + 3) 0 then
              let l1 := layer.set idx (255 - layer.getD idx 0)
              let l2 := l1.set (idx + 1) (255 - l1.getD (idx + 1) 0)
              l2.set (idx + 2) (255 - l2.getD (idx + 2) 0)
            else layer
          else layer)
        layer)
    layer0

/-- `Canvas::filter_grayscale` on the drawing layer; `gray` abstracts the
f32 luminosity computation `(0.299*r + 0.587*g + 0.114*b) as u8`. -/
def filter_grayscale (gray : Nat → Nat → Nat → Nat) (img_w img_h : Nat)
    (layer0 : List Nat) : List Nat :=
  (List.range img_h).foldl
    (fun layer y =>
      (List.range img_w).foldl
        (fun layer x =>
          let idx := y * (img_w * 4) + x * 4
          if idx + 3 < layer.length then
            if 0 < layer.getD (idx + 3) 0 then
              let r := layer.getD idx 0
              let g := layer.getD (idx + 1) 0
              let b := layer.getD (idx + 2) 0
              let gr := gray r g b
              ((layer.set idx gr).set (idx + 1) gr).set (idx + 2) gr
            else layer
          else layer)
        layer)
    layer0

/-- `Canvas::filter_brightness_contrast` on the drawing layer; `adjust`
abstracts the f32 per-channel map
`clamp(factor*(c-128)+128 + brightness, 0, 255) as u8`. -/
def filter_brightness_contrast (adjust : Nat → Nat) (img_w img_h : Nat)
    (layer0 : List Nat) : List Nat :=
  (List.range img_h).foldl
    (fun layer y =>
      (List.range img_w).foldl
        (fun layer x =>
          let idx := y * (img_w * 4) + x * 4
          if idx + 3 < layer.length then
            if 0 < layer.getD (idx + 3) 0 then
              (List.range 3).foldl
                (fun l i => l.set (idx + i) (adjust (l.getD (idx + i) 0)))
                layer
            else layer
          else layer)
        layer)
    layer0

/-- Inclusive integer range `a..=b` of a Rust `for` loop, as a list. -/
def natRangeIncl (a b : Nat) : List Nat :=
  (List.range (b + 1 - a)).map (a + ·)

/-- Accumulator of `filter_blur`'s window sums. -/
structure BlurAcc where
  r : Nat
  g : Nat
  b : Nat
  a : Nat
  count : Nat

/-- `Canvas::filter_blur` on the drawing layer: box blur averaging the
window clipped to image bounds, reading from the pre-blur buffer `layer0`
and writing to a temporary buffer. -/
def filter_blur (radius : Nat) (img_w img_h : Nat) (layer0 : List Nat) :
    List Nat :=
  if radius = 0 then layer0
  else
    (List.range img_h).foldl
      (fun temp y =>
        (List.range img_w).foldl
          (fun temp x =>
            let idx := y * (img_w * 4) + x * 4
            if idx + 3 < layer0.length then
              if layer0.getD (idx + 3) 0 = 0 then temp
              else
                let min_y := y - radius
                let max_y := min (y + radius) (img_h - 1)
                let min_x := x - radius
                let max_x := min (x + radius) (img_w - 1)
                let s : BlurAcc :=
                  (natRangeIncl min_y max_y).foldl
                    (fun acc yy =>
                      (natRangeIncl min_x max_x).foldl
                        (fun acc xx =>
                          let bidx := yy * (img_w * 4) + xx * 4
                          if bidx + 3 < layer0.length then
                            { r := acc.r + layer0.getD bidx 0
                              g := acc.g + layer0.getD (bidx + 1) 0
                              b := acc.b + layer0.getD (bidx + 2) 0
                              a := acc.a + layer0.getD (bidx + 3) 0
                              count := acc.count + 1 }
                          else acc)
                        acc)
                    { r := 0, g := 0, b := 0, a := 0, count := 0 }
                if 0 < s.count then
                  (((temp.set idx (s.r / s.count)).set (idx + 1)
                        (s.g / s.count)).set (idx + 2)
                      (s.b / s.count)).set (idx + 3) (s.a / s.count)
                else temp
            else temp)
          temp)
      layer0

/-- The four bytes of drawing-layer pixel `q`. -/
def bytes4 (l : List Nat) (q : Nat) : Nat × Nat × Nat × Nat :=
  (l.getD (4 * q) 0, l.getD (4 * q + 1) 0, l.getD (4 * q + 2) 0,
    l.getD (4 * q + 3) 0)

theorem getD_set_ne (l : List Nat) (i j v : Nat) (h : i ≠ j) :
    (l.set i v).getD j 0 = l.getD j 0 := by
  simp [List.getD_eq_getElem?_getD, List.getElem?_set_ne h]

/-- Masking invariant for the alpha-guarded RGB filters: alpha bytes are
never written, and the RGB bytes of pixels whose original alpha is zero are
never written. -/
def MaskInv (layer0 l : List Nat) : Prop :=
  (∀ j, l.getD (4 * j + 3) 0 = layer0.getD (4 * j + 3) 0) ∧
  (∀ j, layer0.getD (4 * j + 3) 0 = 0 →
    l.getD (4 * j) 0 = layer0.getD (4 * j) 0 ∧
    l.getD (4 * j + 1) 0 = layer0.getD (4 * j + 1) 0 ∧
    l.getD (4 * j + 2) 0 = layer0.getD (4 * j + 2) 0)

theorem maskInv_refl (layer0 : List Nat) : MaskInv layer0 layer0 :=
  ⟨fun _ => rfl, fun _ _ => ⟨rfl, rfl, rfl⟩⟩

/-- Writing the three RGB bytes of a pixel whose current (= original) alpha
is positive preserves `MaskInv`. -/
theorem maskInv_set3 (layer0 l : List Nat) (p a b c : Nat)
    (hinv : MaskInv layer0 l) (halpha : 0 < l.getD (4 * p + 3) 0) :
    MaskInv layer0
      (((l.set (4 * p) a).set (4 * p + 1) b).set (4 * p + 2) c) := by
  obtain ⟨h1, h2⟩ := hinv
  constructor
  · intro j
    rw [getD_set_ne _ _ _ _ (by omega), getD_set_ne _ _ _ _ (by omega),
      getD_set_ne _ _ _ _ (by omega)]
    exact h1 j
  · intro j hj
    have hpj : p ≠ j := by
      intro he
      rw [h1 p, he, hj] at halpha
      omega
    obtain ⟨e0, e1, e2⟩ := h2 j hj
    refine ⟨?_, ?_, ?_⟩ <;>
      rw [getD_set_ne _ _ _ _ (by omega), getD_set_ne _ _ _ _ (by omega),
        getD_set_ne _ _ _ _ (by omega)] <;> assumption

theorem filter_invert_maskInv (img_w img_h : Nat) (layer0 : List Nat) :
    MaskInv layer0 (filter_invert img_w img_h layer0) := by
  unfold filter_invert
  refine List.foldlRecOn _ _ _ (maskInv_refl layer0) ?_
  intro l hl y _
  refine List.foldlRecOn _ _ _ hl ?_
  intro l' hl' x _
  dsimp only
  have hidx : y * (img_w * 4) + x * 4 = 4 * (y * img_w + x) := by ring
  rw [hidx]
  split
  next hlen =>
    split
    next halpha => exact maskInv_set3 layer0 l' (y * img_w + x) _ _ _ hl' halpha
    next => exact hl'
  next => exact hl'

theorem filter_grayscale_maskInv (gray : Nat → Nat → Nat → Nat)
    (img_w img_h : Nat) (layer0 : List Nat) :
    MaskInv layer0 (filter_grayscale gray img_w img_h layer0) := by
  unfold filter_grayscale
  refine List.foldlRecOn _ _ _ (maskInv_refl layer0) ?_
  intro l hl y _
  refine List.foldlRecOn _ _ _ hl ?_
  intro l' hl' x _
  dsimp only
  have hidx : y * (img_w * 4) + x * 4 = 4 * (y * img_w + x) := by ring
  rw [hidx]
  split
  next hlen =>
    split
    next halpha => exact maskInv_set3 layer0 l' (y * img_w + x) _ _ _ hl' halpha
    next => exact hl'
  next => exact hl'

theorem filter_brightness_contrast_maskInv (adjust : Nat → Nat)
    (img_w img_h : Nat) (layer0 : List Nat) :
    MaskInv layer0 (filter_brightness_contrast adjust img_w img_h layer0) := by
  unfold filter_brightness_contrast
  refine List.foldlRecOn _ _ _ (maskInv_refl layer0) ?_
  intro l hl y _
  refine List.foldlRecOn _ _ _ hl ?_
  intro l' hl' x _
  dsimp only
  have hidx : y * (img_w * 4) + x * 4 = 4 * (y * img_w + x) := by ring
  rw [hidx]
  split
  next hlen =>
    split
    next halpha =>
      rw [show List.range 3 = [0, 1, 2] from rfl]
      simp only [List.foldl_cons, List.foldl_nil, Nat.add_zero]
      exact maskInv_set3 layer0 l' (y * img_w + x) _ _ _ hl' halpha
    next => exact hl'
  next => exact hl'

/-- Masking invariant for blur: all four bytes of pixels whose original alpha
is zero are never written to the temporary buffer. -/
def BlurInv (layer0 temp : List Nat) : Prop :=
  ∀ j, layer0.getD (4 * j + 3) 0 = 0 →
    temp.getD (4 * j) 0 = layer0.getD (4 * j) 0 ∧
    temp.getD (4 * j + 1) 0 = layer0.getD (4 * j + 1) 0 ∧
    temp.getD (4 * j + 2) 0 = layer0.getD (4 * j + 2) 0 ∧
    temp.getD (4 * j + 3) 0 = layer0.getD (4 * j + 3) 0

theorem blurInv_set4 (layer0 temp : List Nat) (p a b c d : Nat)
    (hinv : BlurInv layer0 temp)
    (halpha : layer0.getD (4 * p + 3) 0 ≠ 0) :
    BlurInv layer0
      ((((temp.set (4 * p) a).set (4 * p + 1) b).set (4 * p + 2) c).set
        (4 * p + 3) d) := by
  intro j hj
  have hpj : p ≠ j := fun he => halpha (he ▸ hj)
  obtain ⟨e0, e1, e2, e3⟩ := hinv j hj
  refine ⟨?_, ?_, ?_, ?_⟩ <;>
    rw [getD_set_ne _ _ _ _ (by omega), getD_set_ne _ _ _ _ (by omega),
      getD_set_ne _ _ _ _ (by omega), getD_set_ne _ _ _ _ (by omega)] <;>
    assumption

theorem filter_blur_blurInv (radius img_w img_h : Nat) (layer0 : List Nat) :
    BlurInv layer0 (filter_blur radius img_w img_h layer0) := by
  unfold filter_blur
  split
  next => intro j _; exact ⟨rfl, rfl, rfl, rfl⟩
  next =>
    refine List.foldlRecOn _ _ _ (fun j _ => ⟨rfl, rfl, rfl, rfl⟩) ?_
    intro l hl y _
    refine List.foldlRecOn _ _ _ hl ?_
    intro l' hl' x _
    dsimp only
    have hidx : y * (img_w * 4) + x * 4 = 4 * (y * img_w + x) := by ring
    rw [hidx]
    split
    next hlen =>
      split
      next => exact hl'
      next halpha =>
        split
        next => exact blurInv_set4 layer0 l' (y * img_w + x) _ _ _ _ hl' halpha
        next => exact hl'
    next => exact hl'

/-- C5: each of the four filters leaves every drawing-layer pixel whose alpha
byte is 0 before the call completely unchanged (all four bytes), for every
image size, every original layer, every blur radius and every possible
behaviour `gray` / `adjust` of the floating-point per-pixel maps. -/
theorem c5_filters_preserve_zero_alpha (img_w img_h : Nat)
    (layer : List Nat) (gray : Nat → Nat → Nat → Nat) (adjust : Nat → Nat)
    (radius : Nat) (q : Nat) (hq : layer.getD (4 * q + 3) 0 = 0) :
    bytes4 (filter_invert img_w img_h layer) q = bytes4 layer q ∧
    bytes4 (filter_grayscale gray img_w img_h layer) q = bytes4 layer q ∧
    bytes4 (filter_brightness_contrast adjust img_w img_h layer) q
      = bytes4 layer q ∧
    bytes4 (filter_blur radius img_w img_h layer) q = bytes4 layer q := by
  refine ⟨?_, ?_, ?_, ?_⟩
  · obtain ⟨h1, h2⟩ := filter_invert_maskInv img_w img_h layer
    obtain ⟨e0, e1, e2⟩ := h2 q hq
    simp only [bytes4, Prod.mk.injEq]
    exact ⟨e0, e1, e2, h1 q⟩
  · obtain ⟨h1, h2⟩ := filter_grayscale_maskInv gray img_w img_h layer
    obtain ⟨e0, e1, e2⟩ := h2 q hq
    simp only [bytes4, Prod.mk.injEq]
    exact ⟨e0, e1, e2, h1 q⟩
  · obtain ⟨h1, h2⟩ :=
      filter_brightness_contrast_maskInv adjust img_w img_h layer
    obtain ⟨e0, e1, e2⟩ := h2 q hq
    simp only [bytes4, Prod.mk.injEq]
    exact ⟨e0, e1, e2, h1 q⟩
  · obtain ⟨e0, e1, e2, e3⟩ := filter_blur_blurInv radius img_w img_h layer q hq
    simp only [bytes4, Prod.mk.injEq]
    exact ⟨e0, e1, e2, e3⟩

/-- Witness for `c5_filters_preserve_zero_alpha`: a 1×1 layer holding a
single transparent pixel `[7, 8, 9, 0]`. -/
theorem c5_filters_preserve_zero_alpha_witness :
    ([7, 8, 9, 0] : List Nat).getD (4 * 0 + 3) 0 = 0 ∧
      (bytes4 (filter_invert 1 1 [7, 8, 9, 0]) 0 = bytes4 [7, 8, 9, 0] 0 ∧
        bytes4 (filter_grayscale (fun r g b => (r + g + b) / 3) 1 1
            [7, 8, 9, 0]) 0 = bytes4 [7, 8, 9, 0] 0 ∧
        bytes4 (filter_brightness_contrast (fun v => v + 1) 1 1
            [7, 8, 9, 0]) 0 = bytes4 [7, 8, 9, 0] 0 ∧
        bytes4 (filter_blur 2 1 1 [7, 8, 9, 0]) 0 = bytes4 [7, 8, 9, 0] 0) :=
  ⟨rfl,
    c5_filters_preserve_zero_alpha 1 1 [7, 8, 9, 0]
      (fun r g b => (r + g + b) / 3) (fun v => v + 1) 2 0 rfl⟩

/-! ## `Canvas::stamp_circle` (C6)

`cx`, `cy`, `radius` are `f32` in the source; the bounding-box and
squared-distance arithmetic is modelled over exact rationals.  The claim
concerns only which pixels `blend_pixel` is invoked on, so the per-pixel
paint action is abstracted as an arbitrary state transformer `g`;
`stamp_circle` below reproduces the source's clipped nested loops and
distance test and calls `g` exactly where the source calls
`self.blend_pixel(x as u32, y as u32, color)`. -/

/-- The inclusive `i32` loop range `a..=b` of a Rust `for` loop, as a list
(empty when `b < a`). -/
def intRangeIncl (a b : Int) : List Int :=
  (List.range (b + 1 - a).toNat).map (fun (i : Nat) => a + (i : Int))

/-- `Canvas::stamp_circle` with the `blend_pixel` call abstracted as `g`. -/
def stamp_circle (g : Canvas → Nat → Nat → Canvas) (c : Canvas)
    (cx cy radius : ℚ) : Canvas :=
  if radius ≤ 0 then c
  else
    let r2 := radius * radius
    let min_x : Int := max ⌊cx - radius⌋ 0
    let max_x : Int := min ⌈cx + radius⌉ ((c.width : Int) - 1)
    let min_y : Int := max ⌊cy - radius⌋ 0
    let max_y : Int := min ⌈cy + radius⌉ ((c.height : Int) - 1)
    (intRangeIncl min_y max_y).foldl
      (fun cy' (y : Int) =>
        (intRangeIncl min_x max_x).foldl
          (fun cx' (x : Int) =>
            let dx := (x : ℚ) + 1 / 2 - cx
            let dy := (y : ℚ) + 1 / 2 - cy
            if dx * dx + dy * dy ≤ r2 then g cx' x.toNat y.toNat else cx')
          cy')
      c

/-- The sequence of `(x, y)` coordinates on which `stamp_circle` invokes
`blend_pixel`: the same clipped loops and test, accumulating the visited
pixels instead of painting them. -/
def stampTouched (width height : Nat) (cx cy radius : ℚ) :
    List (Int × Int) :=
  if radius ≤ 0 then []
  else
    let r2 := radius * radius
    let min_x : Int := max ⌊cx - radius⌋ 0
    let max_x : Int := min ⌈cx + radius⌉ ((width : Int) - 1)
    let min_y : Int := max ⌊cy - radius⌋ 0
    let max_y : Int := min ⌈cy + radius⌉ ((height : Int) - 1)
    (intRangeIncl min_y max_y).foldl
      (fun acc (y : Int) =>
        acc ++ (intRangeIncl min_x max_x).filterMap
          (fun (x : Int) =>
            let dx := (x : ℚ) + 1 / 2 - cx
            let dy := (y : ℚ) + 1 / 2 - cy
            if dx * dx + dy * dy ≤ r2 then some (x, y) else none))
      []

theorem mem_intRangeIncl (a b m : Int) :
    m ∈ intRangeIncl a b ↔ a ≤ m ∧ m ≤ b := by
  unfold intRangeIncl
  rw [List.mem_map]
  constructor
  · rintro ⟨i, hi, rfl⟩
    rw [List.mem_range] at hi
    omega
  · rintro ⟨h1, h2⟩
    refine ⟨(m - a).toNat, ?_, ?_⟩
    · rw [List.mem_range]
      omega
    · omega

theorem foldl_append_acc {α β : Type} (f : α → List β) (l : List α)
    (acc : List β) :
    l.foldl (fun a y => a ++ f y) acc = acc ++ l.foldl (fun a y => a ++ f y) [] := by
  induction l generalizing acc with
  | nil => simp
  | cons hd tl ih =>
      simp only [List.foldl_cons]
      rw [ih (acc ++ f hd), ih (List.nil ++ f hd)]
      simp [List.append_assoc]

theorem mem_foldl_append {α β : Type} (f : α → List β) (l : List α) (p : β) :
    p ∈ l.foldl (fun a y => a ++ f y) [] ↔ ∃ y ∈ l, p ∈ f y := by
  induction l with
  | nil => simp
  | cons hd tl ih =>
      simp only [List.foldl_cons, List.nil_append]
      rw [foldl_append_acc, List.mem_append, ih]
      simp only [List.mem_cons]
      constructor
      · rintro (h | ⟨y, hy, hp⟩)
        · exact ⟨hd, Or.inl rfl, h⟩
        · exact ⟨y, Or.inr hy, hp⟩
      · rintro ⟨y, hy, hp⟩
        rcases hy with rfl | hy
        · exact Or.inl hp
        · exact Or.inr ⟨y, hy, hp⟩

/-- C6: for canvases with `width, height ≥ 1`, when `radius > 0` the set of
pixels `stamp_circle` invokes `blend_pixel` on is exactly the set of
in-bounds pixels whose center `(x + 1/2, y + 1/2)` is at squared distance at
most `radius²` from `(cx, cy)`; and for `radius ≤ 0` the call returns the
canvas unchanged (no pixel of any buffer changes), whatever the paint
action `g` does. -/
theorem c6_stamp_circle_coverage (width height : Nat) (cx cy radius : ℚ)
    (_hw : 1 ≤ width) (_hh : 1 ≤ height) :
    (0 < radius → ∀ x y : Int,
      ((x, y) ∈ stampTouched width height cx cy radius ↔
        (0 ≤ x ∧ x < (width : Int) ∧ 0 ≤ y ∧ y < (height : Int) ∧
          ((x : ℚ) + 1 / 2 - cx) * ((x : ℚ) + 1 / 2 - cx) +
              ((y : ℚ) + 1 / 2 - cy) * ((y : ℚ) + 1 / 2 - cy)
            ≤ radius * radius))) ∧
    (radius ≤ 0 → ∀ (g : Canvas → Nat → Nat → Canvas) (c : Canvas),
      stamp_circle g c cx cy radius = c) := by
  constructor
  · intro hr x y
    unfold stampTouched
    rw [if_neg (by exact absurd · (not_le.mpr hr))]
    rw [mem_foldl_append, ]
    constructor
    · rintro ⟨y', hy', hmem⟩
      rw [List.mem_filterMap] at hmem
      obtain ⟨x', hx', hsome⟩ := hmem
      by_cases htest :
          ((x' : ℚ) + 1 / 2 - cx) * ((x' : ℚ) + 1 / 2 - cx) +
              ((y' : ℚ) + 1 / 2 - cy) * ((y' : ℚ) + 1 / 2 - cy)
            ≤ radius * radius
      · rw [if_pos htest] at hsome
        obtain ⟨rfl, rfl⟩ : x' = x ∧ y' = y := by
          constructor <;> · injection hsome with h; injection h
        rw [mem_intRangeIncl] at hy' hx'
        refine ⟨?_, ?_, ?_, ?_, htest⟩ <;> omega
      · rw [if_neg htest] at hsome
        exact absurd hsome (by simp)
    · rintro ⟨hx0, hxw, hy0, hyh, htest⟩
      -- derive the four linear bounds from the quadratic test
      have hdx1 : cx - radius ≤ (x : ℚ) + 1 / 2 := by
        nlinarith [htest, sq_nonneg ((x : ℚ) + 1 / 2 - cx + radius),
          sq_nonneg ((y : ℚ) + 1 / 2 - cy)]
      have hdx2 : (x : ℚ) + 1 / 2 ≤ cx + radius := by
        nlinarith [htest, sq_nonneg ((x : ℚ) + 1 / 2 - cx - radius),
          sq_nonneg ((y : ℚ) + 1 / 2 - cy)]
      have hdy1 : cy - radius ≤ (y : ℚ) + 1 / 2 := by
        nlinarith [htest, sq_nonneg ((y : ℚ) + 1 / 2 - cy + radius),
          sq_nonneg ((x : ℚ) + 1 / 2 - cx)]
      have hdy2 : (y : ℚ) + 1 / 2 ≤ cy + radius := by
        nlinarith [htest, sq_nonneg ((y : ℚ) + 1 / 2 - cy - radius),
          sq_nonneg ((x : ℚ) + 1 / 2 - cx)]
      have hfx : ⌊cx - radius⌋ ≤ x := by
        have h1 : ((⌊cx - radius⌋ : Int) : ℚ) ≤ cx - radius := Int.floor_le _
        have h2 : ((⌊cx - radius⌋ : Int) : ℚ) < (x : ℚ) + 1 := by linarith
        have h3 : ⌊cx - radius⌋ < x + 1 := by exact_mod_cast h2
        omega
      have hcx : x ≤ ⌈cx + radius⌉ := by
        have h1 : cx + radius ≤ ((⌈cx + radius⌉ : Int) : ℚ) := Int.le_ceil _
        have h2 : (x : ℚ) < ((⌈cx + radius⌉ : Int) : ℚ) + 1 := by linarith
        have h3 : x < ⌈cx + radius⌉ + 1 := by exact_mod_cast h2
        omega
      have hfy : ⌊cy - radius⌋ ≤ y := by
        have h1 : ((⌊cy - radius⌋ : Int) : ℚ) ≤ cy - radius := Int.floor_le _
        have h2 : ((⌊cy - radius⌋ : Int) : ℚ) < (y : ℚ) + 1 := by linarith
        have h3 : ⌊cy - radius⌋ < y + 1 := by exact_mod_cast h2
        omega
      have hcy : y ≤ ⌈cy + radius⌉ := by
        have h1 : cy + radius ≤ ((⌈cy + radius⌉ : Int) : ℚ) := Int.le_ceil _
        have h2 : (y : ℚ) < ((⌈cy + radius⌉ : Int) : ℚ) + 1 := by linarith
        have h3 : y < ⌈cy + radius⌉ + 1 := by exact_mod_cast h2
        omega
      refine ⟨y, ?_, ?_⟩
      · rw [mem_intRangeIncl]
        exact ⟨max_le hfy hy0, le_min hcy (by omega)⟩
      · rw [List.mem_filterMap]
        refine ⟨x, ?_, ?_⟩
        · rw [mem_intRangeIncl]
          exact ⟨max_le hfx hx0, le_min hcx (by omega)⟩
        · rw [if_pos htest]
  · intro hr g c
    unfold stamp_circle
    rw [if_pos hr]

/-- Witness for `c6_stamp_circle_coverage` on a 1×1 canvas with a unit
circle centred on the pixel center. -/
theorem c6_stamp_circle_coverage_witness :
    (1 ≤ 1) ∧ (0 : ℚ) < 1 ∧
      (((0 : Int), (0 : Int)) ∈ stampTouched 1 1 (1 / 2) (1 / 2) 1 ↔
        (0 ≤ (0 : Int) ∧ (0 : Int) < ((1 : Nat) : Int) ∧ 0 ≤ (0 : Int) ∧
          (0 : Int) < ((1 : Nat) : Int) ∧
          (((0 : Int) : ℚ) + 1 / 2 - 1 / 2) * (((0 : Int) : ℚ) + 1 / 2 - 1 / 2) +
              (((0 : Int) : ℚ) + 1 / 2 - 1 / 2) * (((0 : Int) : ℚ) + 1 / 2 - 1 / 2)
            ≤ 1 * 1)) :=
  ⟨le_refl 1, by norm_num,
    (c6_stamp_circle_coverage 1 1 (1 / 2) (1 / 2) 1 (le_refl 1)
      (le_refl 1)).1 (by norm_num) 0 0⟩

/-! ## `Canvas::flood_fill` (C3)

The source's `Vec<bool>` visited bitmap of size `width*height`, indexed by
`y*width + x`, is modelled as the `Finset ℕ` of indices holding `true`
(every index the code reads or writes is `< width*height`, by the loop's
bounds guard).  The explicit stack is a `List` whose head is the top.  The
loop is a well-founded recursion: every iteration either pops without
pushing or marks an unvisited in-bounds cell visited. -/

/-- Read the `[u8; 4]` value of `pixels` at byte offset `idx`. -/
def read4 (l : List Nat) (idx : Nat) : Nat × Nat × Nat × Nat :=
  (l.getD idx 0, l.getD (idx + 1) 0, l.getD (idx + 2) 0, l.getD (idx + 3) 0)

/-- Rust `l[idx..idx+4].copy_from_slice(&v)`. -/
def write4 (l : List Nat) (idx : Nat) (v : Nat × Nat × Nat × Nat) :
    List Nat :=
  (((l.set idx v.1).set (idx + 1) v.2.1).set (idx + 2) v.2.2.1).set
    (idx + 3) v.2.2.2

/-- The four guarded neighbour pushes of `flood_fill` (pushing onto a
`Vec` stack modelled as consing onto the list head). -/
def pushNeighbors (w h x y : Nat) (rest : List (Nat × Nat)) :
    List (Nat × Nat) :=
  let s1 := if 0 < x then (x - 1, y) :: rest else rest
  let s2 := if x + 1 < w then (x + 1, y) :: s1 else s1
  let s3 := if 0 < y then (x, y - 1) :: s2 else s2
  if y + 1 < h then (x, y + 1) :: s3 else s3

theorem pushNeighbors_length (w h x y : Nat) (rest : List (Nat × Nat)) :
    (pushNeighbors w h x y rest).length ≤ rest.length + 4 := by
  unfold pushNeighbors
  split_ifs <;> simp only [List.length_cons] <;> omega

theorem mem_pushNeighbors (w h x y : Nat) (rest : List (Nat × Nat))
    (p : Nat × Nat) :
    p ∈ pushNeighbors w h x y rest ↔
      (0 < x ∧ p = (x - 1, y)) ∨ (x + 1 < w ∧ p = (x + 1, y)) ∨
        (0 < y ∧ p = (x, y - 1)) ∨ (y + 1 < h ∧ p = (x, y + 1)) ∨
        p ∈ rest := by
  unfold pushNeighbors
  split_ifs <;> simp only [List.mem_cons] <;> tauto

/-- A cell's bitmap index is inside the `width*height` bitmap. -/
theorem vidx_lt {w h x y : Nat} (hx : x < w) (hy : y < h) :
    y * w + x < w * h := by
  have h1 : (y + 1) * w ≤ h * w := Nat.mul_le_mul_right _ hy
  calc y * w + x < y * w + w := by omega
    _ = (y + 1) * w := by ring
    _ ≤ h * w := h1
    _ = w * h := Nat.mul_comm _ _

/-- The bitmap indexing `(x, y) ↦ y*w + x` is injective on in-bounds
cells. -/
theorem vidx_inj {w x y a b : Nat} (hx : x < w) (ha : a < w)
    (he : y * w + x = b * w + a) : x = a ∧ y = b := by
  rcases Nat.lt_trichotomy y b with hyb | rfl | hby
  · exfalso
    have h1 : (y + 1) * w ≤ b * w := Nat.mul_le_mul_right _ hyb
    have h2 : y * w + x < (y + 1) * w := by
      calc y * w + x < y * w + w := by omega
        _ = (y + 1) * w := by ring
    omega
  · omega
  · exfalso
    have h1 : (b + 1) * w ≤ y * w := Nat.mul_le_mul_right _ hby
    have h2 : b * w + a < (b + 1) * w := by
      calc b * w + a < b * w + w := by omega
        _ = (b + 1) * w := by ring
    omega

theorem sdiff_insert_card_lt {v : Nat} {s t : Finset Nat} (hv : v ∈ s)
    (hnv : v ∉ t) : (s \ insert v t).card < (s \ t).card := by
  have h1 : s \ insert v t = (s \ t).erase v := by
    ext a
    simp only [Finset.mem_sdiff, Finset.mem_erase, Finset.mem_insert]
    tauto
  rw [h1]
  exact Finset.card_erase_lt_of_mem (Finset.mem_sdiff.mpr ⟨hv, hnv⟩)

/-- The while-loop of `Canvas::flood_fill`, acting on
`(stack, visited, pixels, drawing_layer)` and returning the final
`(pixels, drawing_layer)`. -/
def fillLoop (w h stride : Nat) (imgsz : Option (Nat × Nat))
    (zmap : Nat → Int) (pan : Int × Int)
    (target fill : Nat × Nat × Nat × Nat) :
    List (Nat × Nat) → Finset Nat → List Nat → List Nat →
      List Nat × List Nat
  | [], _, px, layer => (px, layer)
  | (x, y) :: rest, visited, px, layer =>
    if hxy : w ≤ x ∨ h ≤ y then
      fillLoop w h stride imgsz zmap pan target fill rest visited px layer
    else
      if hv : y * w + x ∈ visited then
        fillLoop w h stride imgsz zmap pan target fill rest visited px layer
      else
        let visited' := insert (y * w + x) visited
        let pixel_idx := y * stride + x * 4
        if px.length < pixel_idx + 4 then
          fillLoop w h stride imgsz zmap pan target fill rest visited' px
            layer
        else
          if read4 px pixel_idx ≠ target then
            fillLoop w h stride imgsz zmap pan target fill rest visited' px
              layer
          else
            let px' := write4 px pixel_idx fill
            let layer' :=
              match imgsz with
              | some (img_w, img_h) =>
                  let img_x := zmap x - pan.1
                  let img_y := zmap y - pan.2
                  if 0 ≤ img_x ∧ img_x < (img_w : Int) ∧ 0 ≤ img_y ∧
                      img_y < (img_h : Int) then
                    let img_idx := img_y.toNat * (img_w * 4) + img_x.toNat * 4
                    if img_idx + 4 ≤ layer.length then
                      write4 layer img_idx fill
                    else layer
                  else layer
              | none => layer
            fillLoop w h stride imgsz zmap pan target fill
              (pushNeighbors w h x y rest) visited' px' layer'
termination_by stack visited _ _ =>
  5 * ((Finset.range (w * h)) \ visited).card + stack.length
decreasing_by
· simp only [List.length_cons]
  omega
· simp only [List.length_cons]
  omega
· have hcell : y * w + x < w * h := vidx_lt (by omega) (by omega)
  have hlt := sdiff_insert_card_lt (Finset.mem_range.mpr hcell) hv
  simp only [List.length_cons]
  omega
· have hcell : y * w + x < w * h := vidx_lt (by omega) (by omega)
  have hlt := sdiff_insert_card_lt (Finset.mem_range.mpr hcell) hv
  simp only [List.length_cons]
  omega
· have hcell : y * w + x < w * h := vidx_lt (by omega) (by omega)
  have hlt := sdiff_insert_card_lt (Finset.mem_range.mpr hcell) hv
  have hpn := pushNeighbors_length w h x y rest
  simp only [List.length_cons]
  omega

/-- `Canvas::flood_fill`. -/
def Canvas.flood_fill (c : Canvas) (start_x start_y : Nat)
    (fill_color : Nat × Nat × Nat × Nat) : Canvas :=
  if c.width ≤ start_x ∨ c.height ≤ start_y then c
  else
    let idx := start_y * c.stride + start_x * 4
    if c.pixels.length < idx + 4 then c
    else
      let target_color := read4 c.pixels idx
      if target_color = fill_color then c
      else
        let r := fillLoop c.width c.height c.stride c.loadedImageSize c.zmap
          c.panOffset target_color fill_color [(start_x, start_y)] ∅
          c.pixels c.drawingLayer
        { c with pixels := r.1, drawingLayer := r.2, dirty := true }

theorem getD_set_self (l : List Nat) (i v : Nat) (h : i < l.length) :
    (l.set i v).getD i 0 = v := by
  simp [List.getD_eq_getElem?_getD, List.getElem?_set_self h]

theorem length_write4 (l : List Nat) (idx : Nat) (v : Nat × Nat × Nat × Nat) :
    (write4 l idx v).length = l.length := by
  simp [write4]

theorem getD_write4_ne (l : List Nat) (idx : Nat) (v : Nat × Nat × Nat × Nat)
    (j : Nat) (hj : j < idx ∨ idx + 4 ≤ j) :
    (write4 l idx v).getD j 0 = l.getD j 0 := by
  unfold write4
  rw [getD_set_ne _ _ _ _ (by omega), getD_set_ne _ _ _ _ (by omega),
    getD_set_ne _ _ _ _ (by omega), getD_set_ne _ _ _ _ (by omega)]

theorem read4_write4_self (l : List Nat) (idx : Nat)
    (v : Nat × Nat × Nat × Nat) (hlen : idx + 4 ≤ l.length) :
    read4 (write4 l idx v) idx = v := by
  obtain ⟨v1, v2, v3, v4⟩ := v
  unfold read4 write4
  simp only [Prod.mk.injEq]
  refine ⟨?_, ?_, ?_, ?_⟩
  · rw [getD_set_ne _ _ _ _ (by omega), getD_set_ne _ _ _ _ (by omega),
      getD_set_ne _ _ _ _ (by omega),
      getD_set_self _ _ _ (by omega)]
  · rw [getD_set_ne _ _ _ _ (by omega), getD_set_ne _ _ _ _ (by omega),
      getD_set_self _ _ _ (by simp only [List.length_set]; omega)]
  · rw [getD_set_ne _ _ _ _ (by omega),
      getD_set_self _ _ _ (by simp only [List.length_set]; omega)]
  · rw [getD_set_self _ _ _ (by simp only [List.length_set]; omega)]

theorem read4_write4_ne (l : List Nat) (idx pos : Nat)
    (v : Nat × Nat × Nat × Nat) (hdisj : pos + 4 ≤ idx ∨ idx + 4 ≤ pos) :
    read4 (write4 l idx v) pos = read4 l pos := by
  unfold read4
  rw [getD_write4_ne _ _ _ _ (by omega), getD_write4_ne _ _ _ _ (by omega),
    getD_write4_ne _ _ _ _ (by omega), getD_write4_ne _ _ _ _ (by omega)]

/-- Byte ranges of distinct in-bounds pixels of a stride-padded buffer are
disjoint. -/
theorem pos_disjoint {w stride x y a b : Nat} (hst : w * 4 ≤ stride)
    (hx : x < w) (ha : a < w) (hne : ¬(x = a ∧ y = b)) :
    y * stride + x * 4 + 4 ≤ b * stride + a * 4 ∨
      b * stride + a * 4 + 4 ≤ y * stride + x * 4 := by
  rcases Nat.lt_trichotomy y b with hyb | rfl | hby
  · left
    have h1 : (x + 1) * 4 ≤ w * 4 := Nat.mul_le_mul_right 4 hx
    have h2 : (y + 1) * stride ≤ b * stride := Nat.mul_le_mul_right _ hyb
    have h3 : y * stride + stride = (y + 1) * stride := by ring
    omega
  · rcases Nat.lt_trichotomy x a with hxa | rfl | hax
    · left
      have h1 : (x + 1) * 4 ≤ a * 4 := Nat.mul_le_mul_right 4 hxa
      omega
    · exact absurd ⟨rfl, rfl⟩ hne
    · right
      have h1 : (a + 1) * 4 ≤ x * 4 := Nat.mul_le_mul_right 4 hax
      omega
  · right
    have h1 : (a + 1) * 4 ≤ w * 4 := Nat.mul_le_mul_right 4 ha
    have h2 : (b + 1) * stride ≤ y * stride := Nat.mul_le_mul_right _ hby
    have h3 : b * stride + stride = (b + 1) * stride := by ring
    omega

/-- Loop invariant of `flood_fill` on a uniform canvas: the stack holds
in-bounds cells, the visited set holds in-bounds indices, visited cells have
been painted `fill` and unvisited cells still read `target`, bytes outside
pixel ranges are untouched, every in-bounds neighbour of a visited cell is
visited or pending on the stack, and the seed is visited or pending. -/
structure FillInv (w h stride : Nat) (target fill : Nat × Nat × Nat × Nat)
    (px₀ : List Nat) (sx sy : Nat) (stack : List (Nat × Nat))
    (visited : Finset Nat) (px : List Nat) : Prop where
  stack_bounds : ∀ p ∈ stack, p.1 < w ∧ p.2 < h
  len_eq : px.length = px₀.length
  cells : ∀ x y, x < w → y < h →
    read4 px (y * stride + x * 4)
      = if y * w + x ∈ visited then fill else target
  padding : ∀ j, (∀ x y, x < w → y < h →
      ¬(y * stride + x * 4 ≤ j ∧ j < y * stride + x * 4 + 4)) →
    px.getD j 0 = px₀.getD j 0
  closure : ∀ x y, x < w → y < h → y * w + x ∈ visited →
    (0 < x → y * w + (x - 1) ∈ visited ∨ (x - 1, y) ∈ stack) ∧
    (x + 1 < w → y * w + (x + 1) ∈ visited ∨ (x + 1, y) ∈ stack) ∧
    (0 < y → (y - 1) * w + x ∈ visited ∨ (x, y - 1) ∈ stack) ∧
    (y + 1 < h → (y + 1) * w + x ∈ visited ∨ (x, y + 1) ∈ stack)
  seed : (sx, sy) ∈ stack ∨ sy * w + sx ∈ visited

/-- A set of cell indices containing the seed and closed under in-bounds
4-neighbours covers the whole grid. -/
theorem grid_connected (w h : Nat) (V : Finset Nat) (sx sy : Nat)
    (hsx : sx < w) (hsy : sy < h) (hseed : sy * w + sx ∈ V)
    (hclosed : ∀ x y, x < w → y < h → y * w + x ∈ V →
      (0 < x → y * w + (x - 1) ∈ V) ∧ (x + 1 < w → y * w + (x + 1) ∈ V) ∧
      (0 < y → (y - 1) * w + x ∈ V) ∧ (y + 1 < h → (y + 1) * w + x ∈ V)) :
    ∀ x y, x < w → y < h → y * w + x ∈ V := by
  have row : ∀ x, x < w → sy * w + x ∈ V := by
    have right : ∀ d, sx + d < w → sy * w + (sx + d) ∈ V := by
      intro d
      induction d with
      | zero => intro _; simpa using hseed
      | succ n ih =>
          intro hd
          have h1 := ih (by omega)
          have h2 := (hclosed (sx + n) sy (by omega) hsy h1).2.1 (by omega)
          have he : sx + n + 1 = sx + (n + 1) := by omega
          rwa [he] at h2
    have left : ∀ d, d ≤ sx → sy * w + (sx - d) ∈ V := by
      intro d
      induction d with
      | zero => intro _; simpa using hseed
      | succ n ih =>
          intro hd
          have h1 := ih (by omega)
          have h2 := (hclosed (sx - n) sy (by omega) hsy h1).1 (by omega)
          have he : sx - n - 1 = sx - (n + 1) := by omega
          rwa [he] at h2
    intro x hx
    rcases Nat.le_total sx x with hzx | hzx
    · have h1 := right (x - sx) (by omega)
      have he : sx + (x - sx) = x := by omega
      rwa [he] at h1
    · have h1 := left (sx - x) (by omega)
      have he : sx - (sx - x) = x := by omega
      rwa [he] at h1
  intro x y hx hy
  have down : ∀ d, sy + d < h → (sy + d) * w + x ∈ V := by
    intro d
    induction d with
    | zero => intro _; simpa using row x hx
    | succ n ih =>
        intro hd
        have h1 := ih (by omega)
        have h2 := (hclosed x (sy + n) hx (by omega) h1).2.2.2 (by omega)
        have he : sy + n + 1 = sy + (n + 1) := by omega
        rwa [he] at h2
  have up : ∀ d, d ≤ sy → (sy - d) * w + x ∈ V := by
    intro d
    induction d with
    | zero => intro _; simpa using row x hx
    | succ n ih =>
        intro hd
        have h1 := ih (by omega)
        have h2 := (hclosed x (sy - n) hx (by omega) h1).2.2.1 (by omega)
        have he : sy - n - 1 = sy - (n + 1) := by omega
        rwa [he] at h2
  rcases Nat.le_total sy y with hzy | hzy
  · have h1 := down (y - sy) (by omega)
    have he : sy + (y - sy) = y := by omega
    rwa [he] at h1
  · have h1 := up (sy - y) (by omega)
    have he : sy - (sy - y) = y := by omega
    rwa [he] at h1

set_option maxHeartbeats 1600000 in
/-- On a uniform canvas the flood-fill loop, started from any state
satisfying `FillInv`, paints every in-bounds pixel `fill`, touches no byte
outside the pixel ranges, and preserves the buffer length. -/
theorem fillLoop_uniform (w h stride : Nat) (imgsz : Option (Nat × Nat))
    (zmap : Nat → Int) (pan : Int × Int)
    (target fill : Nat × Nat × Nat × Nat) (px₀ : List Nat) (sx sy : Nat)
    (hst : w * 4 ≤ stride) (hlen0 : px₀.length = stride * h)
    (hsx : sx < w) (hsy : sy < h) :
    ∀ stack visited px layer,
      FillInv w h stride target fill px₀ sx sy stack visited px →
      (∀ x y, x < w → y < h →
        read4 (fillLoop w h stride imgsz zmap pan target fill stack visited
          px layer).1 (y * stride + x * 4) = fill) ∧
      (∀ j, (∀ x y, x < w → y < h →
          ¬(y * stride + x * 4 ≤ j ∧ j < y * stride + x * 4 + 4)) →
        (fillLoop w h stride imgsz zmap pan target fill stack visited px
          layer).1.getD j 0 = px₀.getD j 0) ∧
      (fillLoop w h stride imgsz zmap pan target fill stack visited px
        layer).1.length = px₀.length := by
  intro stack visited px layer
  induction stack, visited, px, layer using fillLoop.induct w h stride imgsz zmap pan target fill
  next visited px layer =>
    intro hinv
    rw [fillLoop]
    have hall : ∀ x y, x < w → y < h → y * w + x ∈ visited := by
      apply grid_connected w h visited sx sy hsx hsy
      · rcases hinv.seed with hs | hs
        · exact absurd hs (List.not_mem_nil _)
        · exact hs
      · intro x y hx hy hvis
        obtain ⟨c1, c2, c3, c4⟩ := hinv.closure x y hx hy hvis
        refine ⟨fun h' => ?_, fun h' => ?_, fun h' => ?_, fun h' => ?_⟩
        · rcases c1 h' with hh | hh
          · exact hh
          · exact absurd hh (List.not_mem_nil _)
        · rcases c2 h' with hh | hh
          · exact hh
          · exact absurd hh (List.not_mem_nil _)
        · rcases c3 h' with hh | hh
          · exact hh
          · exact absurd hh (List.not_mem_nil _)
        · rcases c4 h' with hh | hh
          · exact hh
          · exact absurd hh (List.not_mem_nil _)
    refine ⟨?_, hinv.padding, hinv.len_eq⟩
    intro x y hx hy
    have hc := hinv.cells x y hx hy
    rwa [if_pos (hall x y hx hy)] at hc
  next x y rest visited px layer hxy ih =>
    intro hinv
    have hb := hinv.stack_bounds (x, y) (List.mem_cons_self _ _)
    exact absurd hxy (by push_neg; omega)
  next x y rest visited px layer hxy hv ih =>
    intro hinv
    rw [fillLoop.eq_def]
    dsimp only
    rw [dif_neg hxy, dif_pos hv]
    apply ih
    have resolve : ∀ (i : Nat) (p : Nat × Nat),
        (i ∈ visited ∨ p ∈ (x, y) :: rest) → (p = (x, y) → i = y * w + x) →
        i ∈ visited ∨ p ∈ rest := by
      intro i p hip hpe
      rcases hip with hh | hh
      · exact Or.inl hh
      · rcases List.mem_cons.mp hh with heq | hh
        · exact Or.inl (by rw [hpe heq]; exact hv)
        · exact Or.inr hh
    refine ⟨fun p hp => hinv.stack_bounds p (List.mem_cons_of_mem _ hp),
      hinv.len_eq, hinv.cells, hinv.padding, ?_, ?_⟩
    · intro a b ha hb hvis
      obtain ⟨c1, c2, c3, c4⟩ := hinv.closure a b ha hb hvis
      refine ⟨fun h' => resolve _ _ (c1 h') ?_,
        fun h' => resolve _ _ (c2 h') ?_,
        fun h' => resolve _ _ (c3 h') ?_,
        fun h' => resolve _ _ (c4 h') ?_⟩ <;>
        · intro heq
          rw [Prod.mk.injEq] at heq
          rw [heq.1, heq.2]
    · rcases hinv.seed with hs | hs
      · rcases List.mem_cons.mp hs with heq | hs'
        · rw [Prod.mk.injEq] at heq
          exact Or.inr (by rw [heq.1, heq.2]; exact hv)
        · exact Or.inl hs'
      · exact Or.inr hs
  next x y rest visited px layer hxy hv visited' pixel_idx hplen ih =>
    intro hinv
    exfalso
    have hx : x < w := by omega
    have hy : y < h := by omega
    have h1 : (x + 1) * 4 ≤ w * 4 := Nat.mul_le_mul_right 4 hx
    have h2 : (y + 1) * stride ≤ h * stride := Nat.mul_le_mul_right _ hy
    have h3 : y * stride + stride = (y + 1) * stride := by ring
    have h4 : h * stride = stride * h := Nat.mul_comm _ _
    have h5 : px.length = stride * h := by rw [hinv.len_eq, hlen0]
    omega
  next x y rest visited px layer hxy hv visited' pixel_idx hplen hcol ih =>
    intro hinv
    exfalso
    have hx : x < w := by omega
    have hy : y < h := by omega
    have hc := hinv.cells x y hx hy
    rw [if_neg hv] at hc
    exact hcol hc
  next x y rest visited px layer hxy hv visited' pixel_idx hplen hcol px' layer' ih =>
    intro hinv
    rw [fillLoop.eq_def]
    dsimp only
    rw [dif_neg hxy, dif_neg hv, if_neg hplen, if_neg hcol]
    apply ih
    have hx : x < w := by omega
    have hy : y < h := by omega
    have hwr : y * stride + x * 4 + 4 ≤ px.length := by omega
    constructor
    · intro p hp
      rw [mem_pushNeighbors] at hp
      rcases hp with ⟨hg, rfl⟩ | ⟨hg, rfl⟩ | ⟨hg, rfl⟩ | ⟨hg, rfl⟩ | hp
      · exact ⟨by omega, hy⟩
      · exact ⟨hg, hy⟩
      · exact ⟨hx, by omega⟩
      · exact ⟨hx, hg⟩
      · exact hinv.stack_bounds p (List.mem_cons_of_mem _ hp)
    · rw [length_write4]
      exact hinv.len_eq
    · intro a b ha hb
      by_cases hab : a = x ∧ b = y
      · obtain ⟨rfl, rfl⟩ := hab
        rw [read4_write4_self _ _ _ hwr,
          if_pos (Finset.mem_insert_self _ _)]
      · have hdisj := pos_disjoint (x := a) (y := b) (a := x) (b := y)
          hst ha hx hab
        rw [read4_write4_ne _ _ _ _ hdisj, hinv.cells a b ha hb]
        have hne2 : b * w + a ≠ y * w + x := fun he =>
          hab (vidx_inj ha hx he)
        by_cases hmem : b * w + a ∈ visited
        · rw [if_pos hmem, if_pos (Finset.mem_insert_of_mem hmem)]
        · rw [if_neg hmem, if_neg (by
            intro hmem'
            rcases Finset.mem_insert.mp hmem' with hh | hh
            · exact hne2 hh
            · exact hmem hh)]
    · intro j hj
      have hjxy := hj x y hx hy
      rw [getD_write4_ne _ _ _ _ (by omega)]
      exact hinv.padding j hj
    · intro a b ha hb hvis
      rcases Finset.mem_insert.mp hvis with heq | hvis'
      · obtain ⟨rfl, rfl⟩ := vidx_inj ha hx heq
        refine ⟨fun h' => ?_, fun h' => ?_, fun h' => ?_, fun h' => ?_⟩
        · exact Or.inr (by rw [mem_pushNeighbors]; exact Or.inl ⟨h', rfl⟩)
        · exact Or.inr
            (by rw [mem_pushNeighbors]; exact Or.inr (Or.inl ⟨h', rfl⟩))
        · exact Or.inr (by
            rw [mem_pushNeighbors]
            exact Or.inr (Or.inr (Or.inl ⟨h', rfl⟩)))
        · exact Or.inr (by
            rw [mem_pushNeighbors]
            exact Or.inr (Or.inr (Or.inr (Or.inl ⟨h', rfl⟩))))
      · obtain ⟨c1, c2, c3, c4⟩ := hinv.closure a b ha hb hvis'
        have lift : ∀ (i : Nat) (p : Nat × Nat),
            (i ∈ visited ∨ p ∈ (x, y) :: rest) →
            (p = (x, y) → i = y * w + x) →
            i ∈ insert (y * w + x) visited ∨
              p ∈ pushNeighbors w h x y rest := by
          intro i p hip hpe
          rcases hip with hh | hh
          · exact Or.inl (Finset.mem_insert_of_mem hh)
          · rcases List.mem_cons.mp hh with heq2 | hh
            · exact Or.inl (by rw [hpe heq2]; exact Finset.mem_insert_self _ _)
            · exact Or.inr ((mem_pushNeighbors w h x y rest p).mpr
                (Or.inr (Or.inr (Or.inr (Or.inr hh)))))
        refine ⟨fun h' => lift _ _ (c1 h') ?_,
          fun h' => lift _ _ (c2 h') ?_,
          fun h' => lift _ _ (c3 h') ?_,
          fun h' => lift _ _ (c4 h') ?_⟩ <;>
          · intro heq2
            rw [Prod.mk.injEq] at heq2
            rw [heq2.1, heq2.2]
    · rcases hinv.seed with hs | hs
      · rcases List.mem_cons.mp hs with heq | hs'
        · rw [Prod.mk.injEq] at heq
          exact Or.inr (by rw [heq.1, heq.2]; exact Finset.mem_insert_self _ _)
        · exact Or.inl ((mem_pushNeighbors w h x y rest (sx, sy)).mpr
            (Or.inr (Or.inr (Or.inr (Or.inr hs')))))
      · exact Or.inr (Finset.mem_insert_of_mem hs)

/-- C3: on an `N×N` canvas whose composite buffer is uniformly `color`,
`flood_fill` from any in-bounds seed with `fill ≠ color` terminates (it is a
total function, by the well-founded recursion of `fillLoop`) and repaints
exactly the `N*N` in-bounds pixels — every pixel reads `fill` afterwards
(hence changed, since it read `color ≠ fill` before), every byte outside the
pixel ranges is untouched and the buffer length is preserved; and
`flood_fill` with `fill = color` (the composite pixel at the seed) is a
complete no-op. -/
theorem c3_flood_fill_uniform (c : Canvas) (N : Nat) (hN : 1 ≤ N)
    (hw : c.width = N) (hh : c.height = N) (hwf : c.WF)
    (color fill : Nat × Nat × Nat × Nat)
    (huni : ∀ x y, x < N → y < N →
      read4 c.pixels (y * c.stride + x * 4) = color)
    (sx sy : Nat) (hsx : sx < N) (hsy : sy < N) :
    (fill ≠ color →
      (∀ x y, x < N → y < N →
        read4 (c.flood_fill sx sy fill).pixels (y * c.stride + x * 4)
          = fill) ∧
      (∀ j, (∀ x y, x < N → y < N →
          ¬(y * c.stride + x * 4 ≤ j ∧ j < y * c.stride + x * 4 + 4)) →
        (c.flood_fill sx sy fill).pixels.getD j 0 = c.pixels.getD j 0) ∧
      (c.flood_fill sx sy fill).pixels.length = c.pixels.length) ∧
    (fill = color → c.flood_fill sx sy fill = c) := by
  subst hw
  obtain ⟨hst, hlen⟩ := hwf
  have hseed := huni sx sy hsx hsy
  have hrow : sy * c.stride + sx * 4 + 4 ≤ c.pixels.length := by
    have h1 : (sx + 1) * 4 ≤ c.width * 4 := Nat.mul_le_mul_right 4 hsx
    have h2 : (sy + 1) * c.stride ≤ c.height * c.stride :=
      Nat.mul_le_mul_right _ (by omega)
    have h3 : sy * c.stride + c.stride = (sy + 1) * c.stride := by ring
    have h4 : c.height * c.stride = c.stride * c.height := Nat.mul_comm _ _
    omega
  constructor
  · intro hfill
    unfold Canvas.flood_fill
    rw [if_neg (by push_neg; omega)]
    dsimp only
    rw [if_neg (by omega), hseed, if_neg (fun he => hfill he.symm)]
    have hloop := fillLoop_uniform c.width c.height c.stride
      c.loadedImageSize c.zmap c.panOffset color fill c.pixels sx sy
      hst hlen hsx (by omega)
      [(sx, sy)] ∅ c.pixels c.drawingLayer
      ⟨by
          intro p hp
          rcases List.mem_cons.mp hp with rfl | hp
          · exact ⟨hsx, by omega⟩
          · exact absurd hp (List.not_mem_nil _),
        rfl,
        by
          intro x y hx hy
          rw [if_neg (Finset.not_mem_empty _)]
          exact huni x y hx (by omega),
        fun j _ => rfl,
        by
          intro x y hx hy hvis
          exact absurd hvis (Finset.not_mem_empty _),
        Or.inl (List.mem_cons_self _ _)⟩
    obtain ⟨hfillall, hpad, hlen'⟩ := hloop
    refine ⟨?_, ?_, ?_⟩
    · intro x y hx hy
      exact hfillall x y hx (by omega)
    · intro j hj
      exact hpad j (fun x y hx hy => hj x y hx (by omega))
    · exact hlen'
  · intro hfill
    unfold Canvas.flood_fill
    rw [if_neg (by push_neg; omega)]
    dsimp only
    rw [if_neg (by omega), hseed, if_pos hfill.symm]

/-- Witness canvas for the flood-fill claim: 1×1, stride 4, uniformly the
color `(1, 2, 3, 4)`. -/
def c3Canvas : Canvas :=
  { width := 1, height := 1, stride := 4, pixels := [1, 2, 3, 4],
    dirty := false, loadedImageSize := none, loadedImageData := none,
    zmap := fun v => (v : Int), drawingLayer := [], panOffset := (0, 0) }

/-- Witness for `c3_flood_fill_uniform` on `c3Canvas` with fill
`(9, 9, 9, 9)`. -/
theorem c3_flood_fill_uniform_witness :
    read4 (c3Canvas.flood_fill 0 0 (9, 9, 9, 9)).pixels
        (0 * c3Canvas.stride + 0 * 4) = (9, 9, 9, 9) :=
  ((c3_flood_fill_uniform c3Canvas 1 le_rfl rfl rfl ⟨by decide, by decide⟩
      (1, 2, 3, 4) (9, 9, 9, 9)
      (by
        intro x y hx hy
        obtain rfl : x = 0 := by omega
        obtain rfl : y = 0 := by omega
        rfl)
      0 0 (by decide) (by decide)).1 (by decide)).1 0 0 (by decide)
    (by decide)
